import Mathlib

/-!
Verification of the bookstore chunk-linked storage engine and router
dispatch against their specification.

The storage engine (package `storage`, file holding `CreateStorage`,
`WriteTo`, `Read`, `Iter`) is embedded shallowly: bytes are `Nat` values
(0..255), chunk indices are `Int` (Go `int`), and the backend is modelled
at chunk granularity, which is faithful because every backend write of the
engine targets the byte region of exactly one chunk
(`pos = storeHeaderSize + idx * ChunkSize`, disjoint regions for distinct
indices), and every read reads within one chunk region.

The gzip compressor is external library code (`compress/gzip`), so the
model is parameterised by a compressor `GzipFn`; theorems assume only the
facts used by the engine (a gzip round-trips on its own output, and a gzip
stream is never empty).  Go loops are modelled by fuel-indexed structural
recursion; the fuel passed by each entry point dominates the number of
iterations of the corresponding Go loop, and running out of fuel yields
the distinguished error `diverge` (a Go execution that would loop forever,
e.g. a cyclic chunk chain).
-/

namespace Bookstore

/-- Ceiling division `⌈a / b⌉` on naturals, as used to count the chunks a
buffer occupies. -/
def ceilDiv (a b : Nat) : Nat := (a + b - 1) / b

/-- Engine error values, one per distinct `fmt.Errorf` site of the engine
(plus `diverge`, marking a Go execution that never terminates, and
`backendReadOOB`, a backend `ReadAt` outside the allocated file). -/
inductive EngErr where
  | storageFull
  | indexOutOfBounds
  | replicationError
  | gzipDecodeFailed
  | backendReadOOB
  | diverge
deriving DecidableEq, Repr

/-- Model of the persisted `chunkHeader` (its 23 reserved zero bytes are
structurally irrelevant and omitted): `DataSize`, `Next`, `Compressed`. -/
structure ChunkHeaderM where
  dataSize : Nat
  next : Int
  compressed : Bool
deriving DecidableEq, Repr

/-- One chunk of the storage file: its header plus its payload region
bytes. -/
structure ChunkM where
  hdr : ChunkHeaderM
  data : List Nat
deriving DecidableEq, Repr

/-- Model of the persisted `storeHeader`. -/
structure StoreHeaderM where
  storageID : Nat
  version : Int
  chunkSize : Nat
  numChunks : Nat
  freeChunkIdx : Int
deriving DecidableEq, Repr

/-- The `Storage` state: header plus the chunk regions of the backend. -/
structure StorageM where
  header : StoreHeaderM
  chunks : List ChunkM
deriving DecidableEq, Repr

/-- An external compressor (Go `compress/gzip` in the source): `zip` is
the gzip writer over a whole buffer, `unzip` the gzip reader (`none` when
the stream is not decodable). -/
structure GzipFn where
  zip : List Nat → List Nat
  unzip : List Nat → Option (List Nat)

/-- `GetChunkDataSize`: `int(s.header.ChunkSize) - chunkHeaderSize` with
`chunkHeaderSize = 32`. -/
def maxChunkDataSize (s : StorageM) : Nat := s.header.chunkSize - 32

/-- The buffer actually laid down by `WriteTo`: the raw payload when the
gzip output is strictly longer (`plainDataLength < buf.Len()`), otherwise
the gzip output. -/
def effBuf (g : GzipFn) (data : List Nat) : List Nat :=
  if data.length < (g.zip data).length then data else g.zip data

/-- The `gzipped` flag chosen by `WriteTo`: starts `true`, reset to
`false` exactly when the raw payload is strictly shorter than its gzip
form. -/
def effGz (g : GzipFn) (data : List Nat) : Bool :=
  if data.length < (g.zip data).length then false else true

/-- The chunk-laying loop of `writeTo` (`for bytesLeft > 0 { ... }`): lays
`bytesLeft` bytes of `dataBuffer` (starting at `dataBufferIdx`) into
consecutive chunks from `currChunk`.  Each iteration checks
`currChunk >= NumChunks` (storage full) and `getChunkPosition < 0` (index
out of bounds), writes the 32-byte chunk header and then the payload
slice.  Fuel-indexed; callers pass fuel larger than any possible number of
iterations. -/
def writeChunksAux (nc maxC : Nat) (gz : Bool) (dataBuffer : List Nat) :
    Nat → List ChunkM → Nat → Nat → Int → List ChunkM × Except EngErr Int
  | 0, chunks, _, _, _ => (chunks, .error .diverge)
  | fuel + 1, chunks, dataBufferIdx, bytesLeft, currChunk =>
    if 0 < bytesLeft then
      if currChunk ≥ (nc : Int) then (chunks, .error .storageFull)
      else if currChunk < 0 then (chunks, .error .indexOutOfBounds)
      else
        let btw := if bytesLeft > maxC then maxC else bytesLeft
        let nxt : Int := if bytesLeft > maxC then currChunk + 1 else -1
        let slice := (dataBuffer.drop dataBufferIdx).take btw
        let oldData := ((chunks.get? currChunk.toNat).map ChunkM.data).getD []
        let ch : ChunkM := ⟨⟨btw, nxt, gz⟩, slice ++ oldData.drop btw⟩
        writeChunksAux nc maxC gz dataBuffer fuel (chunks.set currChunk.toNat ch)
          (dataBufferIdx + btw) (bytesLeft - btw) (currChunk + 1)
    else (chunks, .ok currChunk)

/-- `writeTo` (the private method): lay the chunks, invoke the replication
callback (when non-nil, modelled by `Option`; `true` = nil error), and
only on callback success store the advanced `FreeChunkIdx` and report the
start index.  On any failure the chunk bytes already written remain in the
backend but the header is untouched. -/
def writeTo (s : StorageM) (buf : List Nat) (idx : Int)
    (cb : Option (Int → Bool)) (gz : Bool) : StorageM × Except EngErr Int :=
  match writeChunksAux s.header.numChunks (maxChunkDataSize s) gz buf
      (buf.length + s.header.numChunks + 1) s.chunks 0 buf.length idx with
  | (chunks1, .error e) => ({ s with chunks := chunks1 }, .error e)
  | (chunks1, .ok currChunk) =>
    let cbOK := match cb with
      | none => true
      | some f => f idx
    if cbOK then
      ({ header := { s.header with freeChunkIdx := currChunk }, chunks := chunks1 },
        .ok idx)
    else ({ s with chunks := chunks1 }, .error .replicationError)

/-- `WriteTo`: gzip the payload, keep the raw form when strictly shorter
than its gzip form, resolve a negative index to `FreeChunkIdx`, and lay
the record via `writeTo`. -/
def WriteTo (g : GzipFn) (s : StorageM) (data : List Nat) (idx : Int)
    (cb : Option (Int → Bool)) : StorageM × Except EngErr Int :=
  writeTo s (effBuf g data) (if idx < 0 then s.header.freeChunkIdx else idx) cb
    (effGz g data)

/-- `Write data cb = WriteTo data (-1) cb`. -/
def Write (g : GzipFn) (s : StorageM) (data : List Nat)
    (cb : Option (Int → Bool)) : StorageM × Except EngErr Int :=
  WriteTo g s data (-1) cb

/-- The chain-following loop of `readRaw`.  Each iteration increments the
chunk count, rejects `idx ≥ FreeChunkIdx ∨ idx < 0` with index out of
bounds, reads the chunk header and `DataSize` payload bytes, and follows
`Next` until it is negative.  Fuel-indexed: `FreeChunkIdx` distinct
indices are the most a terminating Go execution can visit. -/
def readRawAux (s : StorageM) :
    Nat → Int → List Nat → Nat → Except EngErr (List Nat × Nat × Bool)
  | 0, _, _, _ => .error .diverge
  | fuel + 1, idx, out, chunkCount =>
    let cc := chunkCount + 1
    if idx ≥ s.header.freeChunkIdx ∨ idx < 0 then .error .indexOutOfBounds
    else
      match s.chunks.get? idx.toNat with
      | none => .error .backendReadOOB
      | some ch =>
        let out2 := out ++ ch.data.take ch.hdr.dataSize
        if ch.hdr.next < 0 then .ok (out2, cc, ch.hdr.compressed)
        else readRawAux s fuel ch.hdr.next out2 cc

/-- `readRaw`: traverse the chain from `idx`, returning the concatenated
payload, the number of chunks visited, and the `Compressed` flag of the
last chunk read. -/
def readRaw (s : StorageM) (idx : Int) : Except EngErr (List Nat × Nat × Bool) :=
  readRawAux s (s.header.freeChunkIdx.toNat + 1) idx [] 0

/-- `Read`: `readRaw`, then gunzip exactly when the flag of the last chunk
of the chain is set. -/
def Read (g : GzipFn) (s : StorageM) (idx : Int) : Except EngErr (List Nat) :=
  match readRaw s idx with
  | .error e => .error e
  | .ok (buf, _, gzd) =>
    if gzd then
      match g.unzip buf with
      | none => .error .gzipDecodeFailed
      | some d => .ok d
    else .ok buf

/-- The loop of `Iter`: from `idx = 0` while `idx < FreeChunkIdx`, read
the record at `idx`, record the callback invocation `(idx, bytes)`, and
jump to `idx + chunksConsumed`.  The callback is modelled as a pure
collector (an always-succeeding Go callback); the returned list is the
exact sequence of invocations. -/
def iterAux (g : GzipFn) (s : StorageM) :
    Nat → Int → List (Int × List Nat) → Except EngErr (List (Int × List Nat))
  | 0, _, _ => .error .diverge
  | fuel + 1, idx, acc =>
    if idx < s.header.freeChunkIdx then
      match readRaw s idx with
      | .error e => .error e
      | .ok (buf, len, gzd) =>
        if gzd then
          match g.unzip buf with
          | none => .error .gzipDecodeFailed
          | some d => iterAux g s fuel (idx + (len : Int)) (acc ++ [(idx, d)])
        else iterAux g s fuel (idx + (len : Int)) (acc ++ [(idx, buf)])
    else .ok acc

/-- `Iter` with an always-succeeding callback, returning the sequence of
callback invocations `(idx, data)` in order. -/
def Iter (g : GzipFn) (s : StorageM) : Except EngErr (List (Int × List Nat)) :=
  iterAux g s (s.header.freeChunkIdx.toNat + 1) 0 []

/-- The in-memory state right after `CreateStorage(_, C, n, sid)` and
`Open`: header with `FreeChunkIdx = 0` and `n` chunks with `Next = -1`,
`DataSize = 0`, `Compressed = false` and a zeroed payload region of `C`
bytes. -/
def freshStorage (sid C n : Nat) : StorageM :=
  { header := { storageID := sid, version := 1, chunkSize := C + 32,
                numChunks := n, freeChunkIdx := 0 },
    chunks := List.replicate n ⟨⟨0, -1, false⟩, List.replicate C 0⟩ }

/-- A concrete stand-in compressor used by witnesses: a one-byte stream
header followed by the raw bytes.  It satisfies the two gzip facts the
engine relies on (round-trip, non-empty output). -/
def mockGzip : GzipFn where
  zip d := 0 :: d
  unzip l := match l with
    | [] => none
    | _ :: t => some t

/-! ### Byte-exact model of `CreateStorage` (little-endian serialization) -/

/-- Little-endian bytes of a `uint32` value (the low 32 bits of `n`). -/
def u32le (n : Nat) : List Nat :=
  [n % 256, n / 256 % 256, n / 65536 % 256, n / 16777216 % 256]

/-- Little-endian bytes of an `int32` value (two's complement). -/
def i32le (n : Int) : List Nat := u32le (n % 4294967296).toNat

/-- Little-endian bytes of a `uint64` value. -/
def u64le (n : Nat) : List Nat :=
  u32le n ++ u32le (n / 4294967296)

/-- `binary.Write` of a `storeHeader` (little-endian, fields in
declaration order): `StorageID u64`, `Version i32`, `ChunkSize i32`,
`NumChunks i32`, `FreeChunkIdx i32`. -/
def storeHeaderBytes (h : StoreHeaderM) : List Nat :=
  u64le h.storageID ++ i32le h.version ++ i32le (h.chunkSize : Int) ++
    i32le (h.numChunks : Int) ++ i32le h.freeChunkIdx

/-- `binary.Write` of a `chunkHeader`: `DataSize i32`, `Next i32`,
`Compressed bool` (one byte), `Reserved [23]byte` (zero). -/
def chunkHeaderBytes (h : ChunkHeaderM) : List Nat :=
  i32le (h.dataSize : Int) ++ i32le h.next ++
    [if h.compressed then 1 else 0] ++ List.replicate 23 0

/-- `CreateStorage(w, chunkDataSize, numChunks, storageID)`: when
`storageID == 0` draw `rand.Uint64()` (modelled by the oracle `randVal`),
then stream out the header (with `FreeChunkIdx = 0`) followed by
`numChunks` copies of an empty chunk (`Next = -1`, zeroed payload
region).  Returns the storage ID and the bytes written. -/
def CreateStorage (chunkDataSize numChunks storageID randVal : Nat) :
    Nat × List Nat :=
  (if storageID = 0 then randVal else storageID,
    storeHeaderBytes
      { storageID := if storageID = 0 then randVal else storageID, version := 1,
        chunkSize := chunkDataSize + 32, numChunks := numChunks, freeChunkIdx := 0 }
      ++ (List.replicate numChunks
            (chunkHeaderBytes ⟨0, -1, false⟩
              ++ List.replicate chunkDataSize 0)).flatten)

/-! ### Router read fan-out (`proxyData`, multi-host branch) -/

/-- The outcome of one proxied `GET` as the router observes it.  `errBody`
is the error message of a non-200 response (`none` when reading or
unmarshalling the body fails), `okBody` the bytes of a 200 response
(`none` when reading fails); messages and bodies are abstracted to `Nat`
identifiers and byte lists. -/
structure RespM where
  status : Nat
  errBody : Option Nat
  okBody : Option (List Nat)
deriving DecidableEq, Repr

/-- One upstream attempt: a transport error or a received response. -/
inductive Fetch where
  | terr
  | resp (r : RespM)
deriving DecidableEq, Repr

/-- Error messages produced by `proxyData`, one per `NewHTTPError` site of
the multi-host branch. -/
inductive RouterMsg where
  | errFromReplica (m : Nat)
  | bodyReadFailed
  | noMoreRetries
  | unmarshalFailed
deriving DecidableEq, Repr

/-- The retry loop of `proxyData` (`for retries := 3; retries > 0;
retries--`): each attempt consults the oracle `o` (attempt number ↦
outcome; the random host pick does not affect which branch runs).
Transport errors and unreadable or non-404 error responses `continue`; a
404 with a readable error body returns 404 at once; a 200 breaks with its
body (or returns 500 when the body read fails).  Returns the loop outcome
(`ok none` = retries exhausted with `responseBody == nil`) and the total
number of upstream requests issued. -/
def proxyLoop (o : Nat → Fetch) :
    Nat → Nat → (Except (Nat × RouterMsg) (Option (List Nat))) × Nat
  | attempt, 0 => (.ok none, attempt)
  | attempt, retries + 1 =>
    match o attempt with
    | .terr => proxyLoop o (attempt + 1) retries
    | .resp r =>
      if r.status ≠ 200 then
        match r.errBody with
        | none => proxyLoop o (attempt + 1) retries
        | some m =>
          if r.status = 404 then (.error (404, .errFromReplica m), attempt + 1)
          else proxyLoop o (attempt + 1) retries
      else
        match r.okBody with
        | none => (.error (500, .bodyReadFailed), attempt + 1)
        | some b => (.ok (some b), attempt + 1)

/-- `proxyData` with more than one alive reader host: run the retry loop,
map exhaustion to `502 "can't get data: no more retries left"`, and
unmarshal the received body (`parse`, `none` = unmarshal error → 500).
Also returns the number of upstream requests issued. -/
def proxyDataMulti (parse : List Nat → Option (List Nat)) (o : Nat → Fetch) :
    (Except (Nat × RouterMsg) (List Nat)) × Nat :=
  match proxyLoop o 0 3 with
  | (.error e, n) => (.error e, n)
  | (.ok none, n) => (.error (502, .noMoreRetries), n)
  | (.ok (some b), n) =>
    match parse b with
    | none => (.error (500, .unmarshalFailed), n)
    | some d => (.ok d, n)

/-- An attempt outcome on which the `proxyData` loop continues retrying:
a transport error, or a non-200 response that is either unreadable or not
a 404. -/
def retriable (f : Fetch) : Prop :=
  match f with
  | .terr => True
  | .resp r => r.status ≠ 200 ∧ (r.errBody = none ∨ r.status ≠ 404)

instance (f : Fetch) : Decidable (retriable f) := by
  unfold retriable
  cases f <;> infer_instance

/-! ### Router write dispatch (`putData`) -/

/-- A router `storageInstance` used as a writer (hosts abstracted to `Nat`
identifiers). -/
structure WriterM where
  host : Nat
  isAlive : Bool
deriving DecidableEq, Repr

/-- The alive-writers snapshot taken under `writerLock`: the
`writerDesc{host, storageID}` list built from the `writers` map (given as
an association list `storageID ↦ instance`), keeping only entries with
`isAlive`. -/
def snapshotWriters (writers : List (Nat × WriterM)) : List (Nat × Nat) :=
  (writers.filter (fun p => p.2.isAlive)).map (fun p => (p.2.host, p.1))

/-- The outcome of one `POST /api/v1/data/append` as `putData` observes
it. -/
inductive PostResult where
  | terr
  | badStatus (code : Nat)
  | readErr
  | unmarshalErr
  | ok (id : Int)
deriving DecidableEq, Repr

/-- The retry loop of `putData`: up to 3 attempts, each picking
`availableWriters[rand.Intn(len)]` (the random draw is the oracle `pick`,
reduced mod the snapshot length) and issuing one POST (outcome oracle
`outc`).  An empty snapshot makes `rand.Intn(0)` panic in Go, modelled by
the error result with no request issued.  Returns the result and the
ordered list of `(host, storageID)` targets actually POSTed to. -/
def putLoop (snapshot : List (Nat × Nat)) (pick : Nat → Nat)
    (outc : Nat → PostResult) :
    Nat → Nat → List (Nat × Nat) → (Except Unit (Nat × Int)) × List (Nat × Nat)
  | _, 0, issued => (.error (), issued)
  | attempt, retries + 1, issued =>
    match snapshot.get? (pick attempt % snapshot.length) with
    | none => (.error (), issued)
    | some wd =>
      match outc attempt with
      | .ok id => (.ok (wd.2, id), issued ++ [wd])
      | _ => putLoop snapshot pick outc (attempt + 1) retries (issued ++ [wd])

/-- `putData` from the point the alive-writers snapshot has been taken:
run the retry loop against the snapshot; on success the response is
`{instance_id: storage_id, item_id: id}`, after 3 failed attempts the 500
error `"can't write data after 3 retries"` (modelled by `Except.error`). -/
def putData (writers : List (Nat × WriterM)) (pick : Nat → Nat)
    (outc : Nat → PostResult) : (Except Unit (Nat × Int)) × List (Nat × Nat) :=
  putLoop (snapshotWriters writers) pick outc 0 3 []

/-! ### Arithmetic helpers -/

theorem ceilDiv_zero_left (b : Nat) : ceilDiv 0 b = 0 := by
  unfold ceilDiv
  cases b with
  | zero => rfl
  | succ b => exact Nat.div_eq_of_lt (by omega)

theorem ceilDiv_one_of {a b : Nat} (h1 : 1 ≤ a) (h2 : a ≤ b) : ceilDiv a b = 1 := by
  unfold ceilDiv
  exact Nat.div_eq_of_lt_le (by omega) (by omega)

theorem ceilDiv_sub {a b : Nat} (hb : 0 < b) (h : b < a) :
    ceilDiv a b = ceilDiv (a - b) b + 1 := by
  unfold ceilDiv
  have h2 : a + b - 1 = (a - b + b - 1) + b := by omega
  rw [h2, Nat.add_div_right _ hb]

theorem ceilDiv_pos {a b : Nat} (ha : 0 < a) (hb : 0 < b) : 0 < ceilDiv a b := by
  rcases le_or_lt a b with h | h
  · rw [ceilDiv_one_of ha h]; omega
  · rw [ceilDiv_sub hb h]; omega

theorem ceilDiv_le_self {b : Nat} (hb : 0 < b) : ∀ a, ceilDiv a b ≤ a := by
  intro a
  induction a using Nat.strong_induction_on with
  | _ a ih =>
    rcases Nat.eq_zero_or_pos a with rfl | ha
    · rw [ceilDiv_zero_left]
    · rcases le_or_lt a b with h | h
      · rw [ceilDiv_one_of ha h]; omega
      · rw [ceilDiv_sub hb h]
        have := ih (a - b) (by omega)
        omega

theorem ceilDiv_le_of_le_mul {b : Nat} (hb : 0 < b) :
    ∀ a n, a ≤ n * b → ceilDiv a b ≤ n := by
  intro a
  induction a using Nat.strong_induction_on with
  | _ a ih =>
    intro n h
    rcases Nat.eq_zero_or_pos a with rfl | ha
    · rw [ceilDiv_zero_left]; omega
    · have hn : 0 < n := by
        by_contra hc
        have : n = 0 := by omega
        subst this; simp at h; omega
      rcases le_or_lt a b with hab | hab
      · rw [ceilDiv_one_of ha hab]; omega
      · rw [ceilDiv_sub hb hab]
        have hsub : a - b ≤ (n - 1) * b := by
          have h1 : a - b ≤ n * b - b := by omega
          have h2 : (n - 1) * b = n * b - b := by
            rw [Nat.sub_one_mul]
          omega
        have := ih (a - b) (by omega) (n - 1) hsub
        omega

/-! ### Record layout predicate -/

/-- `storesRecordK chunks maxC gz f b k`: starting at chunk index `f`,
the buffer `b` is laid down over exactly `k` chunks exactly as the
`writeTo` loop lays it: every non-terminal chunk carries `DataSize =
maxC`, `Next = f + 1` and a full `maxC`-byte slice of `b`; the terminal
chunk carries the remaining bytes and `Next = -1`; every chunk of the
record carries the `Compressed` flag `gz`. -/
def storesRecordK (chunks : List ChunkM) (maxC : Nat) (gz : Bool) :
    Int → List Nat → Nat → Prop
  | _, _, 0 => False
  | f, b, 1 =>
    0 ≤ f ∧ 0 < b.length ∧ b.length ≤ maxC ∧
      ∃ ch, chunks.get? f.toNat = some ch ∧ ch.hdr = ⟨b.length, -1, gz⟩ ∧
        ch.data.take b.length = b
  | f, b, (k + 2) =>
    0 ≤ f ∧ maxC < b.length ∧
      (∃ ch, chunks.get? f.toNat = some ch ∧ ch.hdr = ⟨maxC, f + 1, gz⟩ ∧
        ch.data.take maxC = b.take maxC) ∧
      storesRecordK chunks maxC gz (f + 1) (b.drop maxC) (k + 1)

/-- A record layout only looks at the chunks of its own index range, so
it transfers to any chunk list agreeing there. -/
theorem storesRecordK_congr {chunks chunks2 : List ChunkM} {maxC : Nat} {gz : Bool} :
    ∀ k (f : Int) (b : List Nat),
      (∀ j : Nat, f.toNat ≤ j → j < f.toNat + k → chunks2.get? j = chunks.get? j) →
      storesRecordK chunks maxC gz f b k → storesRecordK chunks2 maxC gz f b k := by
  intro k
  induction k with
  | zero => intro f b _ h; exact h.elim
  | succ k ih =>
    intro f b hagree h
    cases k with
    | zero =>
      obtain ⟨hf, hpos, hle, ch, hget, hhdr, hdata⟩ := h
      exact ⟨hf, hpos, hle, ch, (hagree f.toNat le_rfl (by omega)).trans hget, hhdr, hdata⟩
    | succ k =>
      obtain ⟨hf, hlt, ⟨ch, hget, hhdr, hdata⟩, hrest⟩ := h
      refine ⟨hf, hlt, ⟨ch, (hagree f.toNat le_rfl (by omega)).trans hget, hhdr, hdata⟩, ?_⟩
      refine ih (f + 1) (b.drop maxC) ?_ hrest
      intro j h1 h2
      have hf1 : (f + 1).toNat = f.toNat + 1 := by omega
      exact hagree j (by omega) (by omega)

/-! ### Unfolding equations of the chunk-laying loop -/

theorem writeChunksAux_zero (nc maxC : Nat) (gz : Bool) (dataBuffer : List Nat)
    (fuel : Nat) (chunks : List ChunkM) (dataBufferIdx : Nat) (f : Int) :
    writeChunksAux nc maxC gz dataBuffer (fuel + 1) chunks dataBufferIdx 0 f
      = (chunks, .ok f) := by
  simp [writeChunksAux]

theorem writeChunksAux_step_small (nc maxC : Nat) (gz : Bool) (dataBuffer : List Nat)
    (fuel : Nat) (chunks : List ChunkM) (dataBufferIdx bytesLeft : Nat) (f : Int)
    (h1 : 0 < bytesLeft) (h2 : ¬ f ≥ (nc : Int)) (h3 : ¬ f < 0)
    (h4 : ¬ bytesLeft > maxC) :
    writeChunksAux nc maxC gz dataBuffer (fuel + 1) chunks dataBufferIdx bytesLeft f
      = writeChunksAux nc maxC gz dataBuffer fuel
          (chunks.set f.toNat
            ⟨⟨bytesLeft, -1, gz⟩,
              (dataBuffer.drop dataBufferIdx).take bytesLeft ++
                (((chunks.get? f.toNat).map ChunkM.data).getD []).drop bytesLeft⟩)
          (dataBufferIdx + bytesLeft) 0 (f + 1) := by
  simp only [writeChunksAux, if_pos h1, if_neg h2, if_neg h3, if_neg h4]
  simp

theorem writeChunksAux_step_big (nc maxC : Nat) (gz : Bool) (dataBuffer : List Nat)
    (fuel : Nat) (chunks : List ChunkM) (dataBufferIdx bytesLeft : Nat) (f : Int)
    (h1 : 0 < bytesLeft) (h2 : ¬ f ≥ (nc : Int)) (h3 : ¬ f < 0)
    (h4 : bytesLeft > maxC) :
    writeChunksAux nc maxC gz dataBuffer (fuel + 1) chunks dataBufferIdx bytesLeft f
      = writeChunksAux nc maxC gz dataBuffer fuel
          (chunks.set f.toNat
            ⟨⟨maxC, f + 1, gz⟩,
              (dataBuffer.drop dataBufferIdx).take maxC ++
                (((chunks.get? f.toNat).map ChunkM.data).getD []).drop maxC⟩)
          (dataBufferIdx + maxC) (bytesLeft - maxC) (f + 1) := by
  simp only [writeChunksAux, if_pos h1, if_neg h2, if_neg h3, if_pos h4]

/-! ### The chunk-laying loop succeeds under sufficient capacity and lays
the record exactly -/

theorem writeChunksAux_ok (nc maxC : Nat) (gz : Bool) (dataBuffer : List Nat) :
    ∀ bytesLeft fuel (chunks : List ChunkM) (dataBufferIdx : Nat) (f : Int),
      0 < maxC → 0 < bytesLeft →
      dataBufferIdx + bytesLeft ≤ dataBuffer.length →
      0 ≤ f →
      f + (ceilDiv bytesLeft maxC : Int) ≤ (nc : Int) →
      nc ≤ chunks.length →
      bytesLeft + 1 ≤ fuel →
      ∃ chunks2,
        writeChunksAux nc maxC gz dataBuffer fuel chunks dataBufferIdx bytesLeft f
          = (chunks2, .ok (f + (ceilDiv bytesLeft maxC : Int)))
        ∧ storesRecordK chunks2 maxC gz f
            ((dataBuffer.drop dataBufferIdx).take bytesLeft) (ceilDiv bytesLeft maxC)
        ∧ (∀ j : Nat, (j < f.toNat ∨ f.toNat + ceilDiv bytesLeft maxC ≤ j) →
            chunks2.get? j = chunks.get? j)
        ∧ chunks2.length = chunks.length := by
  intro bytesLeft
  induction bytesLeft using Nat.strong_induction_on with
  | _ bytesLeft ih =>
    intro fuel chunks dataBufferIdx f hC hpos hbuf hf hcap hnc hfuel
    obtain ⟨fuel, rfl⟩ : ∃ g, fuel = g + 1 := ⟨fuel - 1, by omega⟩
    have hcdpos : 0 < ceilDiv bytesLeft maxC := ceilDiv_pos hpos hC
    have hcdposZ : (0 : Int) < (ceilDiv bytesLeft maxC : Int) := by exact_mod_cast hcdpos
    have h2 : ¬ f ≥ (nc : Int) := by omega
    have h3 : ¬ f < 0 := by omega
    have hflen : f.toNat < chunks.length := by omega
    have hblen : ((dataBuffer.drop dataBufferIdx).take bytesLeft).length = bytesLeft := by
      simp [List.length_take, List.length_drop]
      omega
    rcases Nat.lt_or_ge maxC bytesLeft with hbig | hsmall
    · -- the chunk is full: DataSize = maxC, Next = f + 1, recurse
      rw [writeChunksAux_step_big nc maxC gz dataBuffer fuel chunks dataBufferIdx
        bytesLeft f hpos h2 h3 hbig]
      have hcd : ceilDiv bytesLeft maxC = ceilDiv (bytesLeft - maxC) maxC + 1 :=
        ceilDiv_sub hC hbig
      have hcd2pos : 0 < ceilDiv (bytesLeft - maxC) maxC := ceilDiv_pos (by omega) hC
      obtain ⟨chunks2, heq, hrec, hframe, hlen⟩ :=
        ih (bytesLeft - maxC) (by omega) fuel
          (chunks.set f.toNat
            ⟨⟨maxC, f + 1, gz⟩,
              (dataBuffer.drop dataBufferIdx).take maxC ++
                (((chunks.get? f.toNat).map ChunkM.data).getD []).drop maxC⟩)
          (dataBufferIdx + maxC) (f + 1) hC (by omega) (by omega) (by omega)
          (by rw [hcd] at hcap; push_cast at hcap ⊢; omega)
          (by rw [List.length_set]; exact hnc) (by omega)
      refine ⟨chunks2, ?_, ?_, ?_, ?_⟩
      · rw [heq, hcd]
        congr 2
        push_cast
        ring
      · -- layout: head chunk written at f, tail laid by the recursive call
        obtain ⟨k2, hk2⟩ : ∃ m, ceilDiv (bytesLeft - maxC) maxC = m + 1 :=
          ⟨ceilDiv (bytesLeft - maxC) maxC - 1, by omega⟩
        rw [hcd, hk2]
        show storesRecordK chunks2 maxC gz f _ (k2 + 2)
        simp only [storesRecordK]
        refine ⟨hf, by rw [hblen]; omega, ?_, ?_⟩
        · refine ⟨⟨⟨maxC, f + 1, gz⟩,
              (dataBuffer.drop dataBufferIdx).take maxC ++
                (((chunks.get? f.toNat).map ChunkM.data).getD []).drop maxC⟩, ?_, rfl, ?_⟩
          · rw [hframe f.toNat (Or.inl (by omega))]
            exact List.get?_set_eq_of_lt _ (by rw [List.length_set] at *; omega)
          · have hslice : ((dataBuffer.drop dataBufferIdx).take maxC).length = maxC := by
              simp [List.length_take, List.length_drop]
              omega
            rw [List.take_left' hslice, List.take_take]
            congr 1
            omega
        · have hdropb : ((dataBuffer.drop dataBufferIdx).take bytesLeft).drop maxC
              = (dataBuffer.drop (dataBufferIdx + maxC)).take (bytesLeft - maxC) := by
            simp [List.drop_take, List.drop_drop, Nat.add_comm]
          rw [hdropb, ← hk2]
          exact hrec
      · intro j hj
        have hstep : chunks2.get? j
            = (chunks.set f.toNat
                ⟨⟨maxC, f + 1, gz⟩,
                  (dataBuffer.drop dataBufferIdx).take maxC ++
                    (((chunks.get? f.toNat).map ChunkM.data).getD []).drop maxC⟩).get? j := by
          refine hframe j ?_
          rcases hj with h | h
          · exact Or.inl (by omega)
          · exact Or.inr (by rw [hcd] at h; omega)
        rw [hstep]
        exact List.get?_set_ne _ _ (by omega)
      · rw [hlen, List.length_set]
    · -- terminal chunk: DataSize = bytesLeft, Next = -1
      have h4 : ¬ bytesLeft > maxC := by omega
      rw [writeChunksAux_step_small nc maxC gz dataBuffer fuel chunks dataBufferIdx
        bytesLeft f hpos h2 h3 h4]
      obtain ⟨g2, rfl⟩ : ∃ g2, fuel = g2 + 1 := ⟨fuel - 1, by omega⟩
      rw [writeChunksAux_zero]
      have hcd1 : ceilDiv bytesLeft maxC = 1 := ceilDiv_one_of hpos hsmall
      rw [hcd1]
      refine ⟨chunks.set f.toNat
          ⟨⟨bytesLeft, -1, gz⟩,
            (dataBuffer.drop dataBufferIdx).take bytesLeft ++
              (((chunks.get? f.toNat).map ChunkM.data).getD []).drop bytesLeft⟩,
        by norm_num, ?_, ?_, List.length_set _ _ _⟩
      · simp only [storesRecordK]
        refine ⟨hf, by omega, by omega, ?_⟩
        refine ⟨⟨⟨bytesLeft, -1, gz⟩,
            (dataBuffer.drop dataBufferIdx).take bytesLeft ++
              (((chunks.get? f.toNat).map ChunkM.data).getD []).drop bytesLeft⟩,
          List.get?_set_eq_of_lt _ hflen, ?_, ?_⟩
        · rw [hblen]
        · rw [hblen, List.take_left' hblen]
      · intro j hj
        exact List.get?_set_ne _ _ (by omega)

/-! ### Reading a laid-down record returns its buffer, its chunk count,
and the flag of its last chunk -/

theorem readRawAux_chain (s : StorageM) {maxC : Nat} {gz : Bool} :
    ∀ (k : Nat) (f : Int) (b : List Nat) (fuel : Nat) (out : List Nat) (cnt : Nat),
      storesRecordK s.chunks maxC gz f b k →
      f + (k : Int) ≤ s.header.freeChunkIdx →
      k ≤ fuel →
      readRawAux s fuel f out cnt = .ok (out ++ b, cnt + k, gz) := by
  intro k
  induction k with
  | zero => intro f b fuel out cnt h _ _; exact h.elim
  | succ k ih =>
    intro f b fuel out cnt h hle hfuel
    obtain ⟨fuel, rfl⟩ : ∃ g, fuel = g + 1 := ⟨fuel - 1, by omega⟩
    cases k with
    | zero =>
      obtain ⟨hf, hpos, hlen, ch, hget, hhdr, hdata⟩ := h
      simp only [readRawAux]
      rw [if_neg (by push_cast at hle ⊢; omega), hget]
      simp only [hhdr]
      rw [if_pos (by norm_num), hdata]
    | succ k =>
      obtain ⟨hf, hlt, ⟨ch, hget, hhdr, hdata⟩, hrest⟩ := h
      simp only [readRawAux]
      rw [if_neg (by push_cast at hle ⊢; omega), hget]
      simp only [hhdr]
      rw [if_neg (by omega), hdata]
      have hrec := ih (f + 1) (b.drop maxC) fuel (out ++ b.take maxC) (cnt + 1)
        hrest (by push_cast at hle ⊢; omega) (by omega)
      rw [hrec]
      simp [List.append_assoc, List.take_append_drop, Nat.add_assoc,
        Nat.add_left_comm, Nat.add_comm]

/-! ### `writeTo` under capacity: commits the record and advances the
header exactly to the end of the record -/

theorem writeTo_ok (s : StorageM) (buf : List Nat) (idx : Int)
    (cb : Option (Int → Bool)) (gz : Bool)
    (hC : 0 < maxChunkDataSize s)
    (hpos : 0 < buf.length)
    (hf : 0 ≤ idx)
    (hcap : idx + (ceilDiv buf.length (maxChunkDataSize s) : Int)
      ≤ (s.header.numChunks : Int))
    (hnc : s.header.numChunks ≤ s.chunks.length)
    (hcb : match cb with | none => True | some f => f idx = true) :
    ∃ chunks2,
      writeTo s buf idx cb gz
        = (StorageM.mk
            { s.header with
                freeChunkIdx := idx + (ceilDiv buf.length (maxChunkDataSize s) : Int) }
            chunks2, .ok idx)
      ∧ storesRecordK chunks2 (maxChunkDataSize s) gz idx buf
          (ceilDiv buf.length (maxChunkDataSize s))
      ∧ (∀ j : Nat, (j < idx.toNat ∨
            idx.toNat + ceilDiv buf.length (maxChunkDataSize s) ≤ j) →
          chunks2.get? j = s.chunks.get? j)
      ∧ chunks2.length = s.chunks.length := by
  obtain ⟨chunks2, heq, hlay, hframe, hlen⟩ :=
    writeChunksAux_ok s.header.numChunks (maxChunkDataSize s) gz buf buf.length
      (buf.length + s.header.numChunks + 1) s.chunks 0 idx
      hC hpos (by omega) hf hcap hnc (by omega)
  have hb : (buf.drop 0).take buf.length = buf := by simp
  rw [hb] at hlay
  refine ⟨chunks2, ?_, hlay, hframe, hlen⟩
  unfold writeTo
  rw [heq]
  cases cb with
  | none => rfl
  | some f => simp only [hcb]; rfl

/-! ### Small consequences of the write path -/

theorem effBuf_nil (g : GzipFn) : effBuf g [] = [] := by
  unfold effBuf
  by_cases h : ([] : List Nat).length < (g.zip []).length
  · rw [if_pos h]
  · rw [if_neg h]
    simp only [List.length_nil, Nat.not_lt, Nat.le_zero] at h
    exact List.length_eq_zero.mp h

theorem effBuf_length_le (g : GzipFn) (data : List Nat) :
    (effBuf g data).length ≤ data.length := by
  unfold effBuf
  by_cases h : data.length < (g.zip data).length
  · rw [if_pos h]
  · rw [if_neg h]; omega

theorem effBuf_ne_nil (g : GzipFn) (data : List Nat) (hne : data ≠ [])
    (hnn : g.zip data ≠ []) : effBuf g data ≠ [] := by
  unfold effBuf
  by_cases h : data.length < (g.zip data).length
  · rw [if_pos h]; exact hne
  · rw [if_neg h]; exact hnn

/-- A successful `writeTo` always reports the index it was given. -/
theorem writeTo_start {s : StorageM} {buf : List Nat} {idx : Int}
    {cb : Option (Int → Bool)} {gz : Bool} {s2 : StorageM} {i : Int}
    (h : writeTo s buf idx cb gz = (s2, .ok i)) : i = idx := by
  unfold writeTo at h
  rcases hw : writeChunksAux s.header.numChunks (maxChunkDataSize s) gz buf
      (buf.length + s.header.numChunks + 1) s.chunks 0 buf.length idx with ⟨chunks1, r⟩
  rw [hw] at h
  cases r with
  | error e => simp at h
  | ok cc =>
    cases cb with
    | none =>
      simp at h
      omega
    | some f =>
      by_cases hcb : f idx = true
      · simp [hcb] at h
        omega
      · simp only [Bool.not_eq_true] at hcb
        simp [hcb] at h

/-- A successful `Write` always starts at the pre-call `FreeChunkIdx`. -/
theorem Write_start {g : GzipFn} {s : StorageM} {data : List Nat}
    {cb : Option (Int → Bool)} {s2 : StorageM} {i : Int}
    (h : Write g s data cb = (s2, .ok i)) : i = s.header.freeChunkIdx := by
  unfold Write WriteTo at h
  rw [if_pos (by norm_num : (-1 : Int) < 0)] at h
  exact writeTo_start h

/-- Reading the start of a laid-down record yields its buffer, its chunk
count and its flag. -/
theorem readRaw_record (s : StorageM) {maxC : Nat} {gz : Bool} {k : Nat}
    {f : Int} {b : List Nat}
    (hlay : storesRecordK s.chunks maxC gz f b k)
    (hle : f + (k : Int) ≤ s.header.freeChunkIdx)
    (hfuel : k ≤ s.header.freeChunkIdx.toNat + 1) :
    readRaw s f = .ok (b, k, gz) := by
  have h := readRawAux_chain s k f b (s.header.freeChunkIdx.toNat + 1) [] 0
    hlay hle hfuel
  simpa [readRaw] using h

/-- A `Write` into a fresh storage lays `effBuf` as one record at index 0
and advances `FreeChunkIdx` to its chunk count. -/
theorem write_fresh_spec (g : GzipFn) (sid C n : Nat) (data : List Nat)
    (cb : Option (Int → Bool))
    (hne : data ≠ []) (hcap : data.length ≤ n * C) (hnn : g.zip data ≠ [])
    (hcb : match cb with | none => True | some f => f 0 = true) :
    ∃ chunks2,
      Write g (freshStorage sid C n) data cb
        = (StorageM.mk
            { storageID := sid, version := 1, chunkSize := C + 32, numChunks := n,
              freeChunkIdx := (ceilDiv (effBuf g data).length C : Int) }
            chunks2, .ok 0)
      ∧ storesRecordK chunks2 C (effGz g data) 0 (effBuf g data)
          (ceilDiv (effBuf g data).length C)
      ∧ chunks2.length = n := by
  have hdpos : 0 < data.length := List.length_pos.mpr hne
  rcases Nat.eq_zero_or_pos C with rfl | hC
  · rw [Nat.mul_zero] at hcap; omega
  have hbpos : 0 < (effBuf g data).length :=
    List.length_pos.mpr (effBuf_ne_nil g data hne hnn)
  have hble : (effBuf g data).length ≤ data.length := effBuf_length_le g data
  have hmaxC : maxChunkDataSize (freshStorage sid C n) = C := by
    simp [maxChunkDataSize, freshStorage]
  have hcd : ceilDiv (effBuf g data).length C ≤ n :=
    ceilDiv_le_of_le_mul hC _ n (by omega)
  obtain ⟨chunks2, heq, hlay, _, hlen⟩ :=
    writeTo_ok (freshStorage sid C n) (effBuf g data) 0 cb (effGz g data)
      (by rw [hmaxC]; exact hC) hbpos (by norm_num)
      (by
        rw [hmaxC]
        have h1 : (freshStorage sid C n).header.numChunks = n := rfl
        rw [h1]
        omega)
      (by simp [freshStorage]) hcb
  rw [hmaxC] at heq hlay
  refine ⟨chunks2, ?_, hlay, by simpa [freshStorage] using hlen⟩
  unfold Write WriteTo
  rw [if_pos (by norm_num : (-1 : Int) < 0)]
  show writeTo _ _ (freshStorage sid C n).header.freeChunkIdx _ _ = _
  have hfree : (freshStorage sid C n).header.freeChunkIdx = 0 := rfl
  rw [hfree, heq]
  simp [freshStorage]

/-! ### Claim theorems -/

/-- Claim C1 (amended to non-empty payloads): writing a non-empty payload
whose length fits the geometry (`length ≤ numChunks * chunkPayloadSize`)
into a fresh storage with a succeeding replication callback returns start
index 0, and `Read` at that index returns exactly the payload. -/
theorem write_read_roundtrip (g : GzipFn) (sid C n : Nat) (data : List Nat)
    (f : Int → Bool)
    (hne : data ≠ []) (hcap : data.length ≤ n * C)
    (hrt : g.unzip (g.zip data) = some data) (hnn : g.zip data ≠ [])
    (hcb : f 0 = true) :
    ∃ s1, Write g (freshStorage sid C n) data (some f) = (s1, .ok 0)
      ∧ Read g s1 0 = .ok data := by
  obtain ⟨chunks2, heq, hlay, hlen⟩ :=
    write_fresh_spec g sid C n data (some f) hne hcap hnn hcb
  refine ⟨_, heq, ?_⟩
  have hraw : readRaw
      (StorageM.mk
        { storageID := sid, version := 1, chunkSize := C + 32, numChunks := n,
          freeChunkIdx := (ceilDiv (effBuf g data).length C : Int) } chunks2) 0
      = .ok (effBuf g data, ceilDiv (effBuf g data).length C, effGz g data) := by
    refine readRaw_record _ hlay ?_ ?_
    · show (0 : Int) + (ceilDiv (effBuf g data).length C : Int)
        ≤ (ceilDiv (effBuf g data).length C : Int)
      omega
    · show ceilDiv (effBuf g data).length C
        ≤ ((ceilDiv (effBuf g data).length C : Int)).toNat + 1
      omega
  unfold Read
  rw [hraw]
  by_cases h : data.length < (g.zip data).length
  · have hgz : effGz g data = false := by unfold effGz; rw [if_pos h]
    have hbuf : effBuf g data = data := by unfold effBuf; rw [if_pos h]
    rw [hgz, hbuf]
    rfl
  · have hgz : effGz g data = true := by unfold effGz; rw [if_neg h]
    have hbuf : effBuf g data = g.zip data := by unfold effBuf; rw [if_neg h]
    rw [hgz, hbuf]
    simp [hrt]

/-- Claim C1 as literally stated fails at the empty payload: `Write []`
succeeds, returns index 0, yet `Read 0` errors instead of returning the
payload. -/
theorem write_read_roundtrip_cex :
    (Write mockGzip (freshStorage 7 4 4) [] (some fun _ => true)).2 = .ok 0
    ∧ Read mockGzip (Write mockGzip (freshStorage 7 4 4) [] (some fun _ => true)).1 0
        = .error .indexOutOfBounds :=
  ⟨rfl, rfl⟩

/-- Round-trip theorem instantiated at a concrete payload and geometry. -/
theorem write_read_roundtrip_check :
    Read mockGzip
      (Write mockGzip (freshStorage 7 4 4) [1, 2, 3, 4, 5] (some fun _ => true)).1 0
      = .ok [1, 2, 3, 4, 5] := by
  obtain ⟨s1, h1, h2⟩ := write_read_roundtrip mockGzip 7 4 4 [1, 2, 3, 4, 5]
    (fun _ => true) (by decide) (by decide) (by decide) (by decide) (by decide)
  rw [h1]
  exact h2

/-- Claim C5: `Read (FreeChunkIdx + k)` fails with index out of bounds
for every `k ≥ 0` and every storage state, and so does every `Read` at a
negative index; the read guard admits exactly `[0, FreeChunkIdx)`. -/
theorem read_out_of_bounds (g : GzipFn) (s : StorageM) (k : Nat) :
    Read g s (s.header.freeChunkIdx + (k : Int)) = .error .indexOutOfBounds
    ∧ ∀ i : Int, i < 0 → Read g s i = .error .indexOutOfBounds := by
  constructor
  · unfold Read readRaw
    simp only [readRawAux]
    rw [if_pos (Or.inl (by omega))]
  · intro i hi
    unfold Read readRaw
    simp only [readRawAux]
    rw [if_pos (Or.inr hi)]

/-- Out-of-bounds theorem instantiated at a fresh storage, at index 2 and
at index -1. -/
theorem read_out_of_bounds_check :
    Read mockGzip (freshStorage 7 4 4) 2 = .error .indexOutOfBounds
    ∧ Read mockGzip (freshStorage 7 4 4) (-1) = .error .indexOutOfBounds := by
  constructor
  · have h := (read_out_of_bounds mockGzip (freshStorage 7 4 4) 2).1
    norm_num [freshStorage] at h
    exact h
  · exact (read_out_of_bounds mockGzip (freshStorage 7 4 4) 0).2 (-1) (by norm_num)

/-- Claim C10: writing an empty payload with a succeeding callback lays
no chunks, leaves the state (hence `FreeChunkIdx`) unchanged, returns the
current `FreeChunkIdx`, and reading the returned index errors with index
out of bounds. -/
theorem write_empty_payload (g : GzipFn) (s : StorageM) (f : Int → Bool)
    (hcb : f s.header.freeChunkIdx = true) :
    Write g s [] (some f) = (s, .ok s.header.freeChunkIdx)
    ∧ Read g s s.header.freeChunkIdx = .error .indexOutOfBounds := by
  obtain ⟨⟨sid, v, cs, n, fi⟩, chs⟩ := s
  constructor
  · unfold Write WriteTo
    rw [effBuf_nil, if_pos (by norm_num : (-1 : Int) < 0)]
    unfold writeTo
    simp only [List.length_nil]
    rw [writeChunksAux_zero]
    simp only at hcb
    simp [hcb]
  · unfold Read readRaw
    simp only [readRawAux]
    rw [if_pos (Or.inl (by omega))]

/-- Empty-payload theorem instantiated at a fresh storage. -/
theorem write_empty_payload_check :
    Write mockGzip (freshStorage 7 4 4) [] (some fun _ => true)
      = (freshStorage 7 4 4, .ok 0) :=
  (write_empty_payload mockGzip (freshStorage 7 4 4) (fun _ => true) rfl).1

/-- Claim C2: when the chunk-laying fits and the replication callback
errors, `Write` returns the replication error, the header (hence
`FreeChunkIdx`) is unchanged, reading the allocated index errors with
index out of bounds, and any subsequent successful `Write` starts at that
same index. -/
theorem replication_failure_atomicity (g : GzipFn) (s : StorageM)
    (data : List Nat) (f : Int → Bool)
    (hC : 0 < maxChunkDataSize s)
    (hf : 0 ≤ s.header.freeChunkIdx)
    (hcap : s.header.freeChunkIdx +
        (ceilDiv (effBuf g data).length (maxChunkDataSize s) : Int)
      ≤ (s.header.numChunks : Int))
    (hnc : s.header.numChunks ≤ s.chunks.length)
    (hcb : f s.header.freeChunkIdx = false) :
    ∃ s1, Write g s data (some f) = (s1, .error .replicationError)
      ∧ s1.header = s.header
      ∧ Read g s1 s.header.freeChunkIdx = .error .indexOutOfBounds
      ∧ ∀ (g2 : GzipFn) (data2 : List Nat) (cb2 : Option (Int → Bool))
          (s2 : StorageM) (i : Int),
          Write g2 s1 data2 cb2 = (s2, .ok i) → i = s.header.freeChunkIdx := by
  have hok : ∃ chunks1 cc, writeChunksAux s.header.numChunks (maxChunkDataSize s)
      (effGz g data) (effBuf g data)
      ((effBuf g data).length + s.header.numChunks + 1) s.chunks 0
      (effBuf g data).length s.header.freeChunkIdx = (chunks1, .ok cc) := by
    rcases Nat.eq_zero_or_pos (effBuf g data).length with h0 | hpos
    · rw [h0]
      exact ⟨s.chunks, s.header.freeChunkIdx, writeChunksAux_zero _ _ _ _ _ _ _ _⟩
    · obtain ⟨chunks2, heq, _, _, _⟩ :=
        writeChunksAux_ok s.header.numChunks (maxChunkDataSize s) (effGz g data)
          (effBuf g data) (effBuf g data).length
          ((effBuf g data).length + s.header.numChunks + 1) s.chunks 0
          s.header.freeChunkIdx hC hpos (by omega) hf hcap hnc (by omega)
      exact ⟨chunks2, _, heq⟩
  obtain ⟨chunks1, cc, hwc⟩ := hok
  have hwrite : Write g s data (some f)
      = ({ s with chunks := chunks1 }, .error .replicationError) := by
    unfold Write WriteTo
    rw [if_pos (by norm_num : (-1 : Int) < 0)]
    unfold writeTo
    rw [hwc]
    simp [hcb]
  refine ⟨_, hwrite, rfl, ?_, ?_⟩
  · unfold Read readRaw
    simp only [readRawAux]
    rw [if_pos (Or.inl (by omega))]
  · intro g2 data2 cb2 s2 i h
    have hres := Write_start h
    exact hres

/-- Replication-failure theorem instantiated at a fresh storage and an
always-failing callback. -/
theorem replication_failure_atomicity_check :
    (Write mockGzip (freshStorage 7 4 4) [1, 2, 3] (some fun _ => false)).2
      = .error .replicationError
    ∧ Read mockGzip
        (Write mockGzip (freshStorage 7 4 4) [1, 2, 3] (some fun _ => false)).1 0
      = .error .indexOutOfBounds := by
  obtain ⟨s1, h1, h2, h3, h4⟩ := replication_failure_atomicity mockGzip
    (freshStorage 7 4 4) [1, 2, 3] (fun _ => false)
    (by decide) (by decide) (by decide) (by decide) (by decide)
  constructor
  · rw [h1]
  · rw [h1]
    exact h3

/-- Claim C4 (amended): a successful `WriteTo` at a non-negative caller
index sets `FreeChunkIdx` to `idx + chunksConsumed` unconditionally —
also when that value is lower than the `FreeChunkIdx` held before the
call (the free pointer rewinds). -/
theorem writeTo_sets_free_unconditionally (g : GzipFn) (s : StorageM)
    (data : List Nat) (idx : Int) (cb : Option (Int → Bool))
    (hC : 0 < maxChunkDataSize s)
    (hne : data ≠ []) (hnn : g.zip data ≠ [])
    (hidx : 0 ≤ idx)
    (hcap : idx + (ceilDiv (effBuf g data).length (maxChunkDataSize s) : Int)
      ≤ (s.header.numChunks : Int))
    (hnc : s.header.numChunks ≤ s.chunks.length)
    (hcb : match cb with | none => True | some f => f idx = true) :
    ∃ s1, WriteTo g s data idx cb = (s1, .ok idx)
      ∧ s1.header.freeChunkIdx
          = idx + (ceilDiv (effBuf g data).length (maxChunkDataSize s) : Int) := by
  obtain ⟨chunks2, heq, _, _, _⟩ := writeTo_ok s (effBuf g data) idx cb
    (effGz g data) hC (List.length_pos.mpr (effBuf_ne_nil g data hne hnn))
    hidx hcap hnc hcb
  have heq2 : WriteTo g s data idx cb
      = (StorageM.mk
          { s.header with
              freeChunkIdx :=
                idx + (ceilDiv (effBuf g data).length (maxChunkDataSize s) : Int) }
          chunks2, .ok idx) := by
    unfold WriteTo
    rw [if_neg (by omega), heq]
  exact ⟨_, heq2, rfl⟩

/-- Claim C4 as literally stated fails: after two chunks are live
(`FreeChunkIdx = 2`), a one-chunk `WriteTo` at index 0 succeeds and sets
`FreeChunkIdx` to 1 — the code rewinds the pointer instead of leaving it
at 2. -/
theorem writeTo_rewinds_cex :
    (Write mockGzip (freshStorage 7 4 6) [1, 2, 3, 4, 5] none).1.header.freeChunkIdx = 2
    ∧ (WriteTo mockGzip
        (Write mockGzip (freshStorage 7 4 6) [1, 2, 3, 4, 5] none).1 [9] 0 none).2
      = .ok 0
    ∧ (WriteTo mockGzip
        (Write mockGzip (freshStorage 7 4 6) [1, 2, 3, 4, 5] none).1 [9] 0 none).1.header.freeChunkIdx
      = 1 :=
  ⟨rfl, rfl, rfl⟩

/-- Unconditional-update theorem instantiated: rewriting index 0 of the
storage of the counterexample scenario ends with `FreeChunkIdx = 0 + 1`. -/
theorem writeTo_sets_free_unconditionally_check :
    (WriteTo mockGzip (freshStorage 9 4 6) [7] 0 none).2 = .ok 0 := by
  obtain ⟨s1, h1, h2⟩ := writeTo_sets_free_unconditionally mockGzip
    (freshStorage 9 4 6) [7] 0 none
    (by decide) (by decide) (by decide) (by decide) (by decide) (by decide) trivial
  rw [h1]

/-- A compressor whose output can have exactly the length of its input,
exhibiting the boundary the write path's branch
(`plainDataLength < buf.Len()`) decides. -/
def idGzip : GzipFn where
  zip d := d
  unzip d := some d

/-- Claim C3 (amended): the engine stores the compressed form with
`Compressed = true` on every chunk of the record exactly when the
compressed buffer is **no longer than** (`≤`, not `<`) the raw payload,
otherwise the raw form with `Compressed = false`; `readRaw` reports the
flag of the last chunk of the chain and `Read` decompresses exactly when
it is set. -/
theorem compression_flag_policy (g : GzipFn) (sid C n : Nat) (data : List Nat)
    (f : Int → Bool)
    (hne : data ≠ []) (hcap : data.length ≤ n * C)
    (hrt : g.unzip (g.zip data) = some data) (hnn : g.zip data ≠ [])
    (hcb : f 0 = true) :
    ∃ s1, Write g (freshStorage sid C n) data (some f) = (s1, .ok 0)
      ∧ storesRecordK s1.chunks C (effGz g data) 0 (effBuf g data)
          (ceilDiv (effBuf g data).length C)
      ∧ (effGz g data = true ↔ (g.zip data).length ≤ data.length)
      ∧ readRaw s1 0
          = .ok (effBuf g data, ceilDiv (effBuf g data).length C, effGz g data)
      ∧ Read g s1 0 = .ok data := by
  obtain ⟨chunks2, heq, hlay, hlen⟩ :=
    write_fresh_spec g sid C n data (some f) hne hcap hnn hcb
  refine ⟨_, heq, hlay, ?_, ?_, ?_⟩
  · unfold effGz
    by_cases h : data.length < (g.zip data).length
    · rw [if_pos h]
      constructor
      · intro hfalse; exact absurd hfalse (by simp)
      · intro hle; omega
    · rw [if_neg h]
      constructor
      · intro _; omega
      · intro _; rfl
  · refine readRaw_record _ hlay ?_ ?_
    · show (0 : Int) + (ceilDiv (effBuf g data).length C : Int)
        ≤ (ceilDiv (effBuf g data).length C : Int)
      omega
    · show ceilDiv (effBuf g data).length C
        ≤ ((ceilDiv (effBuf g data).length C : Int)).toNat + 1
      omega
  · have hraw : readRaw
        (StorageM.mk
          { storageID := sid, version := 1, chunkSize := C + 32, numChunks := n,
            freeChunkIdx := (ceilDiv (effBuf g data).length C : Int) } chunks2) 0
        = .ok (effBuf g data, ceilDiv (effBuf g data).length C, effGz g data) := by
      refine readRaw_record _ hlay ?_ ?_
      · show (0 : Int) + (ceilDiv (effBuf g data).length C : Int)
          ≤ (ceilDiv (effBuf g data).length C : Int)
        omega
      · show ceilDiv (effBuf g data).length C
          ≤ ((ceilDiv (effBuf g data).length C : Int)).toNat + 1
        omega
    unfold Read
    rw [hraw]
    by_cases h : data.length < (g.zip data).length
    · have hgz : effGz g data = false := by unfold effGz; rw [if_pos h]
      have hbuf : effBuf g data = data := by unfold effBuf; rw [if_pos h]
      rw [hgz, hbuf]
      rfl
    · have hgz : effGz g data = true := by unfold effGz; rw [if_neg h]
      have hbuf : effBuf g data = g.zip data := by unfold effBuf; rw [if_neg h]
      rw [hgz, hbuf]
      simp [hrt]

/-- Claim C3 as literally stated fails at the length-equality boundary:
with a compressor output exactly as long as the payload (not shorter),
the write path still chooses the compressed form and tags the chunk with
`Compressed = true`, where the claim demands `false`. -/
theorem compression_flag_cex :
    (idGzip.zip [1, 2, 3]).length = ([1, 2, 3] : List Nat).length
    ∧ (Write idGzip (freshStorage 7 4 4) [1, 2, 3] none).2 = .ok 0
    ∧ ((Write idGzip (freshStorage 7 4 4) [1, 2, 3] none).1.chunks.get? 0).map
        (fun ch => ch.hdr.compressed) = some true :=
  ⟨rfl, rfl, rfl⟩

/-- Compression-policy theorem instantiated at a concrete payload whose
mock compression is longer than the raw bytes (raw form stored,
`Compressed = false`). -/
theorem compression_flag_policy_check :
    effGz mockGzip [1, 2, 3] = false
    ∧ Read mockGzip
        (Write mockGzip (freshStorage 7 4 4) [1, 2, 3] (some fun _ => true)).1 0
      = .ok [1, 2, 3] := by
  obtain ⟨s1, h1, h2, h3, h4, h5⟩ := compression_flag_policy mockGzip 7 4 4
    [1, 2, 3] (fun _ => true) (by decide) (by decide) (by decide) (by decide)
    (by decide)
  constructor
  · rfl
  · rw [h1]
    exact h5

/-! ### Byte counts of the serialized file -/

theorem storeHeaderBytes_length (h : StoreHeaderM) :
    (storeHeaderBytes h).length = 24 := rfl

theorem chunkHeaderBytes_length (h : ChunkHeaderM) :
    (chunkHeaderBytes h).length = 32 := rfl

theorem flatten_replicate_length (n : Nat) (l : List Nat) :
    (List.replicate n l).flatten.length = n * l.length := by
  induction n with
  | zero => simp
  | succ n ih =>
    rw [List.replicate_succ, List.flatten_cons, List.length_append, ih,
      Nat.succ_mul]
    omega

theorem drop_flatten_replicate (l : List Nat) :
    ∀ i n, i < n →
      (List.replicate n l).flatten.drop (i * l.length)
        = (List.replicate (n - i) l).flatten := by
  intro i
  induction i with
  | zero => intro n _; simp
  | succ i ih =>
    intro n hn
    obtain ⟨m, rfl⟩ : ∃ m, n = m + 1 := ⟨n - 1, by omega⟩
    rw [List.replicate_succ, List.flatten_cons]
    have harith : (i + 1) * l.length = l.length + i * l.length := by ring
    rw [harith, List.drop_append, ih m (by omega)]
    have hsub : m + 1 - (i + 1) = m - i := by omega
    rw [hsub]

/-- Claim C6 (amended: when `storageID == 0` the assigned ID is exactly
the value `rand.Uint64()` returned, which the code does not check to be
non-zero): the created file is a 24-byte header with `FreeChunkIdx = 0`
followed by `numChunks` chunks of `32 + chunkDataSize` bytes, each
starting with the serialized empty chunk header (`DataSize = 0`,
`Next = -1`, `Compressed = false`) followed by a zeroed payload region,
for a total of `24 + numChunks * (32 + chunkDataSize)` bytes. -/
theorem createStorage_layout (c n id r : Nat) :
    (CreateStorage c n id r).2.length = 24 + n * (32 + c)
    ∧ (storeHeaderBytes
        { storageID := (CreateStorage c n id r).1, version := 1,
          chunkSize := c + 32, numChunks := n, freeChunkIdx := 0 }).length = 24
    ∧ (chunkHeaderBytes ⟨0, -1, false⟩).length = 32
    ∧ (id = 0 → (CreateStorage c n id r).1 = r)
    ∧ (id ≠ 0 → (CreateStorage c n id r).1 = id)
    ∧ (CreateStorage c n id r).2.take 24
        = storeHeaderBytes
            { storageID := (CreateStorage c n id r).1, version := 1,
              chunkSize := c + 32, numChunks := n, freeChunkIdx := 0 }
    ∧ ∀ i, i < n →
        ((CreateStorage c n id r).2.drop (24 + i * (32 + c))).take 32
            = chunkHeaderBytes ⟨0, -1, false⟩
        ∧ (((CreateStorage c n id r).2.drop (24 + i * (32 + c))).drop 32).take c
            = List.replicate c 0 := by
  have hbs : (CreateStorage c n id r).2
      = storeHeaderBytes
          { storageID := (CreateStorage c n id r).1, version := 1,
            chunkSize := c + 32, numChunks := n, freeChunkIdx := 0 }
        ++ (List.replicate n
              (chunkHeaderBytes ⟨0, -1, false⟩ ++ List.replicate c 0)).flatten := rfl
  have h24 : (storeHeaderBytes
      { storageID := (CreateStorage c n id r).1, version := 1,
        chunkSize := c + 32, numChunks := n, freeChunkIdx := 0 }).length = 24 := rfl
  have h32 : (chunkHeaderBytes (⟨0, -1, false⟩ : ChunkHeaderM)).length = 32 := rfl
  have hec : (chunkHeaderBytes (⟨0, -1, false⟩ : ChunkHeaderM)
      ++ List.replicate c 0).length = 32 + c := by
    rw [List.length_append, h32, List.length_replicate]
  have hchunk : ∀ i, i < n →
      (CreateStorage c n id r).2.drop (24 + i * (32 + c))
        = (chunkHeaderBytes ⟨0, -1, false⟩ ++ List.replicate c 0)
          ++ (List.replicate (n - i - 1)
                (chunkHeaderBytes ⟨0, -1, false⟩ ++ List.replicate c 0)).flatten := by
    intro i hi
    rw [hbs]
    have hsplit : 24 + i * (32 + c)
        = (storeHeaderBytes
            { storageID := (CreateStorage c n id r).1, version := 1,
              chunkSize := c + 32, numChunks := n, freeChunkIdx := 0 }).length
          + i * (chunkHeaderBytes (⟨0, -1, false⟩ : ChunkHeaderM)
              ++ List.replicate c 0).length := by
      rw [h24, hec]
    rw [hsplit, List.drop_append,
      drop_flatten_replicate _ i n hi]
    obtain ⟨m, hm⟩ : ∃ m, n - i = m + 1 := ⟨n - i - 1, by omega⟩
    rw [hm, List.replicate_succ, List.flatten_cons]
    norm_num
  refine ⟨?_, h24, h32, ?_, ?_, ?_, ?_⟩
  · rw [hbs, List.length_append, h24, flatten_replicate_length, hec]
  · intro h0
    show (if id = 0 then r else id) = r
    rw [if_pos h0]
  · intro h0
    show (if id = 0 then r else id) = id
    rw [if_neg h0]
  · rw [hbs]
    exact List.take_left' h24
  · intro i hi
    constructor
    · rw [hchunk i hi, List.append_assoc]
      exact List.take_left' h32
    · rw [hchunk i hi, List.append_assoc, List.drop_left' h32]
      exact List.take_left' (List.length_replicate _ _)

/-- Claim C6 as literally stated fails on the random draw the code does
not guard: when `storageID = 0` and `rand.Uint64()` returns 0, the
assigned storage ID is 0, not a non-zero value. -/
theorem createStorage_zero_id_cex : (CreateStorage 512 512 0 0).1 = 0 := rfl

/-- Layout theorem instantiated at the spec scenario
`chunkDataSize = 512, numChunks = 512, storageID = 0`: total file size
278552 bytes and the drawn ID is assigned. -/
theorem createStorage_layout_check :
    (CreateStorage 512 512 0 5).2.length = 278552
    ∧ (CreateStorage 512 512 0 5).1 = 5 := by
  obtain ⟨hl, _, _, hid0, _, _, _⟩ := createStorage_layout 512 512 0 5
  constructor
  · rw [hl]
  · exact hid0 rfl

/-! ### A sequence of `Write`s followed by `Iter` -/

/-- Run a sequence of `Write`s (no replica configured, `cb = nil`),
collecting the returned start indices; stop at the first error. -/
def writeSeq (g : GzipFn) : StorageM → List (List Nat) → StorageM × List Int
  | s, [] => (s, [])
  | s, p :: ps =>
    match Write g s p none with
    | (s1, .ok i) => ((writeSeq g s1 ps).1, i :: (writeSeq g s1 ps).2)
    | (s1, .error _) => (s1, [])

/-- Number of chunks the record of payload `p` occupies. -/
def recordSize (g : GzipFn) (C : Nat) (p : List Nat) : Nat :=
  ceilDiv (effBuf g p).length C

/-- The records of the payloads `ps` are laid consecutively from chunk
index `f`. -/
def records (g : GzipFn) (C : Nat) : Int → List (List Nat) → List ChunkM → Prop
  | _, [], _ => True
  | f, p :: ps, chunks =>
    storesRecordK chunks C (effGz g p) f (effBuf g p) (recordSize g C p)
    ∧ records g C (f + (recordSize g C p : Int)) ps chunks

/-- The start indices of consecutively laid records from `f`. -/
def buildIdxs (g : GzipFn) (C : Nat) : Int → List (List Nat) → List Int
  | _, [] => []
  | f, p :: ps => f :: buildIdxs g C (f + (recordSize g C p : Int)) ps

/-- Total number of chunks the records of `ps` occupy. -/
def totalK (g : GzipFn) (C : Nat) (ps : List (List Nat)) : Nat :=
  (ps.map (recordSize g C)).sum

theorem totalK_nil (g : GzipFn) (C : Nat) : totalK g C [] = 0 := rfl

theorem totalK_cons (g : GzipFn) (C : Nat) (p : List Nat) (ps : List (List Nat)) :
    totalK g C (p :: ps) = recordSize g C p + totalK g C ps := by
  simp [totalK]

theorem recordSize_pos (g : GzipFn) (C : Nat) (p : List Nat) (hC : 0 < C)
    (hne : p ≠ []) (hnn : g.zip p ≠ []) : 1 ≤ recordSize g C p :=
  ceilDiv_pos (List.length_pos.mpr (effBuf_ne_nil g p hne hnn)) hC

theorem length_le_totalK (g : GzipFn) (C : Nat) :
    ∀ ps : List (List Nat), (∀ p ∈ ps, 1 ≤ recordSize g C p) →
      ps.length ≤ totalK g C ps := by
  intro ps
  induction ps with
  | nil => intro _; simp [totalK]
  | cons p ps ih =>
    intro h
    rw [totalK_cons, List.length_cons]
    have h1 := h p (List.mem_cons_self p ps)
    have h2 := ih (fun q hq => h q (List.mem_cons_of_mem p hq))
    omega

/-- `Iter`'s loop over consecutively laid records enumerates exactly the
pairs of start index and payload, in order. -/
theorem iterAux_records (g : GzipFn) (C : Nat) (s : StorageM) :
    ∀ (ps : List (List Nat)) (f : Int) (fuel : Nat) (acc : List (Int × List Nat)),
      records g C f ps s.chunks →
      (∀ p ∈ ps, g.unzip (g.zip p) = some p) →
      0 ≤ f →
      f + (totalK g C ps : Int) = s.header.freeChunkIdx →
      ps.length + 1 ≤ fuel →
      iterAux g s fuel f acc = .ok (acc ++ (buildIdxs g C f ps).zip ps) := by
  intro ps
  induction ps with
  | nil =>
    intro f fuel acc _ _ hf hfree hfuel
    obtain ⟨fuel, rfl⟩ : ∃ m, fuel = m + 1 := ⟨fuel - 1, by omega⟩
    rw [totalK_nil] at hfree
    simp only [iterAux]
    rw [if_neg (by omega)]
    simp [buildIdxs]
  | cons p ps ih =>
    intro f fuel acc hrec hrt hf hfree hfuel
    obtain ⟨hlay, hrest⟩ := hrec
    obtain ⟨fuel, rfl⟩ : ∃ m, fuel = m + 1 := ⟨fuel - 1, by omega⟩
    rw [totalK_cons] at hfree
    have hk : 1 ≤ recordSize g C p := by
      rcases hk0 : recordSize g C p with _ | m
      · rw [hk0] at hlay; exact hlay.elim
      · omega
    have hraw : readRaw s f = .ok (effBuf g p, recordSize g C p, effGz g p) := by
      refine readRaw_record s hlay (by omega) (by omega)
    simp only [iterAux]
    rw [if_pos (by omega), hraw]
    have hrec2 := ih (f + (recordSize g C p : Int)) fuel (acc ++ [(f, p)])
      hrest (fun q hq => hrt q (List.mem_cons_of_mem p hq)) (by omega)
      (by push_cast at hfree ⊢; omega) (by simpa using hfuel)
    by_cases h : p.length < (g.zip p).length
    · have hgz : effGz g p = false := by unfold effGz; rw [if_pos h]
      have hbuf : effBuf g p = p := by unfold effBuf; rw [if_pos h]
      rw [hgz, hbuf]
      show iterAux g s fuel (f + (recordSize g C p : Int)) (acc ++ [(f, p)]) = _
      rw [hrec2]
      simp [buildIdxs]
    · have hgz : effGz g p = true := by unfold effGz; rw [if_neg h]
      have hbuf : effBuf g p = g.zip p := by unfold effBuf; rw [if_neg h]
      rw [hgz, hbuf]
      have hup := hrt p (List.mem_cons_self p ps)
      simp only [hup]
      show iterAux g s fuel (f + (recordSize g C p : Int)) (acc ++ [(f, p)]) = _
      rw [hrec2]
      simp [buildIdxs]

/-- Running a sequence of fitting `Write`s lays the records consecutively
from the current `FreeChunkIdx`, returns their start indices, and ends
with `FreeChunkIdx` at the end of the last record. -/
theorem writeSeq_spec (g : GzipFn) (C n : Nat) (hC : 0 < C) :
    ∀ (ps : List (List Nat)) (s : StorageM),
      s.header.chunkSize = C + 32 →
      s.header.numChunks = n →
      s.chunks.length = n →
      0 ≤ s.header.freeChunkIdx →
      (∀ p ∈ ps, p ≠ []) →
      (∀ p ∈ ps, g.zip p ≠ []) →
      s.header.freeChunkIdx + (totalK g C ps : Int) ≤ (n : Int) →
      ∃ s1,
        writeSeq g s ps = (s1, buildIdxs g C s.header.freeChunkIdx ps)
        ∧ s1.header.chunkSize = C + 32
        ∧ s1.header.numChunks = n
        ∧ s1.chunks.length = n
        ∧ s1.header.freeChunkIdx = s.header.freeChunkIdx + (totalK g C ps : Int)
        ∧ records g C s.header.freeChunkIdx ps s1.chunks
        ∧ (∀ j : Nat, j < s.header.freeChunkIdx.toNat →
            s1.chunks.get? j = s.chunks.get? j) := by
  intro ps
  induction ps with
  | nil =>
    intro s h1 h2 h3 h4 _ _ _
    refine ⟨s, by simp [writeSeq, buildIdxs], h1, h2, h3, ?_, trivial, fun j _ => rfl⟩
    rw [totalK_nil]
    omega
  | cons p ps ih =>
    intro s h1 h2 h3 h4 hne hnn hcap
    rw [totalK_cons] at hcap
    have hmaxC : maxChunkDataSize s = C := by
      simp [maxChunkDataSize, h1]
    have hpne : p ≠ [] := hne p (List.mem_cons_self p ps)
    have hpnn : g.zip p ≠ [] := hnn p (List.mem_cons_self p ps)
    have hbpos : 0 < (effBuf g p).length :=
      List.length_pos.mpr (effBuf_ne_nil g p hpne hpnn)
    obtain ⟨chunks2, heq, hlay, hframe, hlen⟩ :=
      writeTo_ok s (effBuf g p) s.header.freeChunkIdx none (effGz g p)
        (by omega) hbpos h4
        (by rw [hmaxC, h2]; show _ + (recordSize g C p : Int) ≤ _; push_cast at hcap ⊢; omega)
        (by omega) trivial
    rw [hmaxC] at heq hlay
    have hwrite : Write g s p none
        = (StorageM.mk
            { s.header with
                freeChunkIdx := s.header.freeChunkIdx + (recordSize g C p : Int) }
            chunks2, .ok s.header.freeChunkIdx) := by
      unfold Write WriteTo
      rw [if_pos (by norm_num : (-1 : Int) < 0), heq]
      rfl
    obtain ⟨s2, hseq2, hh1, hh2, hh3, hfree2, hrecs, hframe2⟩ :=
      ih (StorageM.mk
          { s.header with
              freeChunkIdx := s.header.freeChunkIdx + (recordSize g C p : Int) }
          chunks2)
        h1 h2 (hlen.trans h3)
        (by show (0 : Int) ≤ s.header.freeChunkIdx + (recordSize g C p : Int); omega)
        (fun q hq => hne q (List.mem_cons_of_mem p hq))
        (fun q hq => hnn q (List.mem_cons_of_mem p hq))
        (by show _ + _ ≤ _; push_cast at hcap ⊢; omega)
    have hframe2x : ∀ j : Nat,
        j < (s.header.freeChunkIdx + (recordSize g C p : Int)).toNat →
        s2.chunks.get? j = chunks2.get? j := hframe2
    have hfree2x : s2.header.freeChunkIdx
        = (s.header.freeChunkIdx + (recordSize g C p : Int)) + (totalK g C ps : Int) :=
      hfree2
    refine ⟨s2, ?_, hh1, hh2, hh3, ?_, ?_, ?_⟩
    · show (match Write g s p none with
        | (s1, .ok i) => ((writeSeq g s1 ps).1, i :: (writeSeq g s1 ps).2)
        | (s1, .error _) => (s1, [])) = _
      rw [hwrite]
      show ((writeSeq g
            (StorageM.mk
              { s.header with
                  freeChunkIdx := s.header.freeChunkIdx + (recordSize g C p : Int) }
              chunks2) ps).1,
          s.header.freeChunkIdx ::
            (writeSeq g
              (StorageM.mk
                { s.header with
                    freeChunkIdx := s.header.freeChunkIdx + (recordSize g C p : Int) }
                chunks2) ps).2) = _
      rw [hseq2]
      simp [buildIdxs]
    · rw [hfree2x, totalK_cons]
      push_cast
      ring
    · constructor
      · refine storesRecordK_congr (recordSize g C p) s.header.freeChunkIdx
          (effBuf g p) ?_ hlay
        intro j hj1 hj2
        exact hframe2x j (by omega)
      · exact hrecs
    · intro j hj
      rw [hframe2x j (by omega)]
      exact hframe j (Or.inl hj)

/-- Claim C7: after a sequence of (fitting, hence successful) `Write`s of
non-empty payloads into a fresh storage, `Iter` invokes its callback
exactly once per stored record, in ascending start-index order, with
`idx` arguments exactly the indices the successive `Write`s returned and
`data` the original payloads. -/
theorem iter_complete (g : GzipFn) (sid C n : Nat) (ps : List (List Nat))
    (hC : 0 < C)
    (hne : ∀ p ∈ ps, p ≠ [])
    (hnn : ∀ p ∈ ps, g.zip p ≠ [])
    (hrt : ∀ p ∈ ps, g.unzip (g.zip p) = some p)
    (hcap : totalK g C ps ≤ n) :
    ∃ s1, writeSeq g (freshStorage sid C n) ps = (s1, buildIdxs g C 0 ps)
      ∧ Iter g s1 = .ok ((buildIdxs g C 0 ps).zip ps) := by
  obtain ⟨s1, hseq, hh1, hh2, hh3, hfree, hrecs, _⟩ :=
    writeSeq_spec g C n hC ps (freshStorage sid C n) rfl rfl
      (by simp [freshStorage]) (by show (0 : Int) ≤ 0; norm_num) hne hnn
      (by show (0 : Int) + _ ≤ _; omega)
  have hfree0 : s1.header.freeChunkIdx = (totalK g C ps : Int) := by
    rw [hfree]
    show (0 : Int) + _ = _
    omega
  refine ⟨s1, hseq, ?_⟩
  have hlen : ps.length ≤ totalK g C ps :=
    length_le_totalK g C ps
      (fun p hp => recordSize_pos g C p hC (hne p hp) (hnn p hp))
  have hiter := iterAux_records g C s1 ps 0 (s1.header.freeChunkIdx.toNat + 1) []
    hrecs hrt (by norm_num) (by rw [hfree0]; omega)
    (by rw [hfree0]; omega)
  unfold Iter
  rw [hiter]
  simp

/-- Iter-completeness instantiated: two writes (two-chunk then one-chunk
records), enumerated at indices 0 and 2 with the original payloads. -/
theorem iter_complete_check :
    Iter mockGzip
      (writeSeq mockGzip (freshStorage 7 4 8) [[1, 2, 3, 4, 5], [9, 9]]).1
      = .ok [(0, [1, 2, 3, 4, 5]), (2, [9, 9])] := by
  obtain ⟨s1, h1, h2⟩ := iter_complete mockGzip 7 4 8 [[1, 2, 3, 4, 5], [9, 9]]
    (by decide) (by decide) (by decide) (by decide) (by decide)
  rw [h1]
  exact h2

/-! ### Router read loop lemmas -/

theorem proxyLoop_count (o : Nat → Fetch) :
    ∀ (retries attempt : Nat), (proxyLoop o attempt retries).2 ≤ attempt + retries := by
  intro retries
  induction retries with
  | zero => intro attempt; simp [proxyLoop]
  | succ q ih =>
    intro attempt
    simp only [proxyLoop]
    cases ho : o attempt with
    | terr =>
      simp only []
      have := ih (attempt + 1)
      omega
    | resp r =>
      simp only []
      by_cases h200 : r.status ≠ 200
      · rw [if_pos h200]
        cases he : r.errBody with
        | none =>
          simp only []
          have := ih (attempt + 1)
          omega
        | some m =>
          simp only []
          by_cases h404 : r.status = 404
          · rw [if_pos h404]
            omega
          · rw [if_neg h404]
            have := ih (attempt + 1)
            omega
      · rw [if_neg h200]
        cases hb : r.okBody with
        | none => simp only []; omega
        | some b => simp only []; omega

theorem proxyLoop_skip (o : Nat → Fetch) (attempt q : Nat)
    (h : retriable (o attempt)) :
    proxyLoop o attempt (q + 1) = proxyLoop o (attempt + 1) q := by
  simp only [proxyLoop]
  cases ho : o attempt with
  | terr => rfl
  | resp r =>
    rw [ho] at h
    obtain ⟨h200, hbody⟩ := h
    simp only []
    rw [if_pos h200]
    cases he : r.errBody with
    | none => rfl
    | some m =>
      simp only []
      rcases hbody with hb | hb
      · rw [he] at hb
        exact absurd hb (by simp)
      · rw [if_neg hb]

theorem proxyLoop_404 (o : Nat → Fetch) :
    ∀ (j attempt retries : Nat) (r : RespM) (m : Nat),
      j < retries →
      (∀ i, attempt ≤ i → i < attempt + j → retriable (o i)) →
      o (attempt + j) = .resp r → r.status = 404 → r.errBody = some m →
      proxyLoop o attempt retries
        = (.error (404, .errFromReplica m), attempt + j + 1) := by
  intro j
  induction j with
  | zero =>
    intro attempt retries r m hlt _ ho h404 hm
    obtain ⟨q, rfl⟩ : ∃ q, retries = q + 1 := ⟨retries - 1, by omega⟩
    rw [Nat.add_zero] at ho
    simp only [proxyLoop]
    rw [ho]
    simp only []
    rw [if_pos (show r.status ≠ 200 by rw [h404]; norm_num), hm]
    simp only []
    rw [if_pos h404, Nat.add_zero]
  | succ j ih =>
    intro attempt retries r m hlt hpre ho h404 hm
    obtain ⟨q, rfl⟩ : ∃ q, retries = q + 1 := ⟨retries - 1, by omega⟩
    rw [proxyLoop_skip o attempt q (hpre attempt le_rfl (by omega))]
    have hstep := ih (attempt + 1) q r m (by omega)
      (fun i h1 h2 => hpre i (by omega) (by omega))
      (by rw [show attempt + 1 + j = attempt + (j + 1) by omega]; exact ho) h404 hm
    rw [hstep]
    have harith : attempt + 1 + j + 1 = attempt + (j + 1) + 1 := by omega
    rw [harith]

theorem proxyLoop_exhaust (o : Nat → Fetch) :
    ∀ (retries attempt : Nat),
      (∀ i, attempt ≤ i → i < attempt + retries → retriable (o i)) →
      proxyLoop o attempt retries = (.ok none, attempt + retries) := by
  intro retries
  induction retries with
  | zero => intro attempt _; simp [proxyLoop]
  | succ q ih =>
    intro attempt h
    rw [proxyLoop_skip o attempt q (h attempt le_rfl (by omega)),
      ih (attempt + 1) (fun i h1 h2 => h i (by omega) (by omega))]
    have harith : attempt + 1 + q = attempt + (q + 1) := by omega
    rw [harith]

theorem proxyDataMulti_count (parse : List Nat → Option (List Nat))
    (o : Nat → Fetch) :
    (proxyDataMulti parse o).2 = (proxyLoop o 0 3).2 := by
  unfold proxyDataMulti
  rcases hl : proxyLoop o 0 3 with ⟨res, cnt⟩
  rcases res with e | ob
  · rfl
  · rcases ob with _ | b
    · rfl
    · rcases hp : parse b with _ | d <;> simp [hp]

/-- Claim C8: on a multi-host read, `proxyData` issues at most 3 upstream
requests; the first 404 with a readable error body short-circuits — the
router returns 404 with the replica's message right after that request,
issuing no further one; and if all 3 attempts are retriable failures the
router returns `502 "can't get data: no more retries left"`. -/
theorem proxy_404_shortcircuit (parse : List Nat → Option (List Nat))
    (o : Nat → Fetch) :
    (proxyDataMulti parse o).2 ≤ 3
    ∧ (∀ (j : Nat) (r : RespM) (m : Nat), j < 3 →
        (∀ i, i < j → retriable (o i)) →
        o j = .resp r → r.status = 404 → r.errBody = some m →
        proxyDataMulti parse o = (.error (404, .errFromReplica m), j + 1))
    ∧ ((∀ i, i < 3 → retriable (o i)) →
        proxyDataMulti parse o = (.error (502, .noMoreRetries), 3)) := by
  refine ⟨?_, ?_, ?_⟩
  · rw [proxyDataMulti_count]
    have := proxyLoop_count o 3 0
    omega
  · intro j r m hj hpre ho h404 hm
    have hl := proxyLoop_404 o j 0 3 r m hj (fun i _ h2 => hpre i (by omega))
      (by simpa using ho) h404 hm
    unfold proxyDataMulti
    rw [hl]
    show (Except.error (404, RouterMsg.errFromReplica m), 0 + j + 1) = _
    norm_num
  · intro h
    have hl := proxyLoop_exhaust o 3 0 (fun i _ h2 => h i (by omega))
    unfold proxyDataMulti
    rw [hl]

/-- 404 short-circuit instantiated: transport error then 404 — exactly 2
requests issued, result 404 with the replica's message. -/
theorem proxy_404_shortcircuit_check :
    proxyDataMulti (fun b => some b)
      (fun i => if i = 1 then .resp ⟨404, some 42, none⟩ else .terr)
      = (.error (404, .errFromReplica 42), 2) := by
  have h := (proxy_404_shortcircuit (fun b => some b)
      (fun i => if i = 1 then .resp ⟨404, some 42, none⟩ else .terr)).2.1
    1 ⟨404, some 42, none⟩ 42 (by norm_num)
    (by
      intro i hi
      have hi0 : i = 0 := by omega
      subst hi0
      simp [retriable])
    rfl rfl rfl
  exact h

/-! ### Router write loop lemmas -/

theorem putLoop_spec (snapshot : List (Nat × Nat)) (pick : Nat → Nat)
    (outc : Nat → PostResult) :
    ∀ (retries attempt : Nat) (issued : List (Nat × Nat)),
      (putLoop snapshot pick outc attempt retries issued).2.length
        ≤ issued.length + retries
      ∧ ∀ d ∈ (putLoop snapshot pick outc attempt retries issued).2,
          d ∈ snapshot ∨ d ∈ issued := by
  intro retries
  induction retries with
  | zero =>
    intro attempt issued
    refine ⟨by simp [putLoop], ?_⟩
    intro d hd
    right
    simpa [putLoop] using hd
  | succ q ih =>
    intro attempt issued
    simp only [putLoop]
    cases hg : snapshot.get? (pick attempt % snapshot.length) with
    | none =>
      refine ⟨by simp, ?_⟩
      intro d hd
      right
      simpa using hd
    | some wd =>
      have hwd : wd ∈ snapshot := List.get?_mem hg
      cases ho : outc attempt with
      | ok id =>
        refine ⟨by simp, ?_⟩
        intro d hd
        simp at hd
        rcases hd with hd | hd
        · exact Or.inr hd
        · exact Or.inl (hd ▸ hwd)
      | terr =>
        obtain ⟨hlen, hmem⟩ := ih (attempt + 1) (issued ++ [wd])
        refine ⟨by simp at hlen ⊢; omega, ?_⟩
        intro d hd
        rcases hmem d hd with h | h
        · exact Or.inl h
        · simp at h
          rcases h with h | h
          · exact Or.inr h
          · exact Or.inl (h ▸ hwd)
      | badStatus code =>
        obtain ⟨hlen, hmem⟩ := ih (attempt + 1) (issued ++ [wd])
        refine ⟨by simp at hlen ⊢; omega, ?_⟩
        intro d hd
        rcases hmem d hd with h | h
        · exact Or.inl h
        · simp at h
          rcases h with h | h
          · exact Or.inr h
          · exact Or.inl (h ▸ hwd)
      | readErr =>
        obtain ⟨hlen, hmem⟩ := ih (attempt + 1) (issued ++ [wd])
        refine ⟨by simp at hlen ⊢; omega, ?_⟩
        intro d hd
        rcases hmem d hd with h | h
        · exact Or.inl h
        · simp at h
          rcases h with h | h
          · exact Or.inr h
          · exact Or.inl (h ▸ hwd)
      | unmarshalErr =>
        obtain ⟨hlen, hmem⟩ := ih (attempt + 1) (issued ++ [wd])
        refine ⟨by simp at hlen ⊢; omega, ?_⟩
        intro d hd
        rcases hmem d hd with h | h
        · exact Or.inl h
        · simp at h
          rcases h with h | h
          · exact Or.inr h
          · exact Or.inl (h ▸ hwd)

theorem snapshot_mem {writers : List (Nat × WriterM)} {d : Nat × Nat}
    (h : d ∈ snapshotWriters writers) :
    ∃ iid w, (iid, w) ∈ writers ∧ w.isAlive = true ∧ d = (w.host, iid) := by
  unfold snapshotWriters at h
  rcases List.mem_map.mp h with ⟨⟨iid, w⟩, hmem, heq⟩
  rcases List.mem_filter.mp hmem with ⟨hmem2, halive⟩
  exact ⟨iid, w, hmem2, by simpa using halive, heq.symm⟩

theorem assoc_keys_unique :
    ∀ {l : List (Nat × WriterM)}, (l.map Prod.fst).Nodup →
      ∀ {a : Nat} {b c : WriterM}, (a, b) ∈ l → (a, c) ∈ l → b = c := by
  intro l
  induction l with
  | nil =>
    intro _ a b c h1 _
    exact absurd h1 (List.not_mem_nil _)
  | cons x xs ih =>
    intro hnd a b c h1 h2
    rw [List.map_cons, List.nodup_cons] at hnd
    obtain ⟨hx, hnd2⟩ := hnd
    rcases List.mem_cons.mp h1 with h1 | h1 <;> rcases List.mem_cons.mp h2 with h2 | h2
    · rw [← h2] at h1
      exact (Prod.mk.injEq _ _ _ _ ▸ h1).2
    · exfalso
      apply hx
      have : a = x.1 := by rw [← h1]
      rw [this] at h2
      exact List.mem_map.mpr ⟨(x.1, c), h2, rfl⟩
    · exfalso
      apply hx
      have : a = x.1 := by rw [← h2]
      rw [this] at h1
      exact List.mem_map.mpr ⟨(x.1, b), h1, rfl⟩
    · exact ih hnd2 h1 h2

/-- Claim C9: one `putData` call issues at most 3 POSTs, every issued
POST targets a `(host, storageID)` pair of the alive-writers snapshot
taken at the start of the call, and a writer that was dead at snapshot
time never receives a request during the call. -/
theorem putData_targets (writers : List (Nat × WriterM)) (pick : Nat → Nat)
    (outc : Nat → PostResult)
    (hnd : (writers.map Prod.fst).Nodup) :
    (putData writers pick outc).2.length ≤ 3
    ∧ (∀ d ∈ (putData writers pick outc).2, d ∈ snapshotWriters writers)
    ∧ (∀ iid w, (iid, w) ∈ writers → w.isAlive = false →
        ∀ d ∈ (putData writers pick outc).2, d.2 ≠ iid) := by
  obtain ⟨hlen, hmem⟩ := putLoop_spec (snapshotWriters writers) pick outc 3 0 []
  have hsnap : ∀ d ∈ (putData writers pick outc).2, d ∈ snapshotWriters writers := by
    intro d hd
    rcases hmem d hd with h | h
    · exact h
    · exact absurd h (List.not_mem_nil d)
  refine ⟨by simpa using hlen, hsnap, ?_⟩
  intro iid w hw hdead d hd hcontra
  obtain ⟨iid2, w2, hmem2, halive, heq⟩ := snapshot_mem (hsnap d hd)
  have hiid : iid2 = iid := by
    rw [heq] at hcontra
    simpa using hcontra
  subst hiid
  have hww : w2 = w := assoc_keys_unique hnd hmem2 hw
  rw [hww] at halive
  rw [halive] at hdead
  exact absurd hdead (by norm_num)

/-- Writer-snapshot theorem instantiated: one alive and one dead writer,
all attempts failing — at most 3 POSTs are issued. -/
theorem putData_targets_check :
    (putData [(1, ⟨10, true⟩), (2, ⟨20, false⟩)] (fun i => i)
      (fun _ => .terr)).2.length ≤ 3 :=
  (putData_targets [(1, ⟨10, true⟩), (2, ⟨20, false⟩)] (fun i => i)
    (fun _ => .terr) (by decide)).1

end Bookstore
